import Mathlib

/-
Verification development for the image-OCR-to-CSV pipeline of
`src/ocr_gui.py`.  The parts of the program the properties below speak
about are embedded shallowly:

  * Python strings are `List Char`; `str.upper`, `str.strip`, `str.lstrip`,
    `str.replace` and whitespace splitting are modelled character by
    character (ASCII-faithful on the character classes the program
    manipulates);
  * the CSV output file is `Option (List CsvRow)` (`none` = the file does
    not exist yet), a row being its list of fields;
  * the HTTP layer of the OCR client is an explicit outcome value: either
    the request raised `requests.exceptions.RequestException`, or a
    response with a status code and a parsed JSON body arrived.
-/

namespace OcrGui

/-- Whitespace characters of Python's `str.split()` / `str.strip()`
(ASCII range: space, tab, newline, carriage return, vertical tab, form feed). -/
def isPySpace (c : Char) : Bool :=
  c = ' ' ∨ c = '\t' ∨ c = '\n' ∨ c = '\r' ∨ c = '\x0b' ∨ c = '\x0c'

/-- Python `str.strip()`: remove leading and trailing whitespace. -/

def pyStrip (s : List Char) : List Char :=
  ((s.dropWhile isPySpace).reverse.dropWhile isPySpace).reverse

/-- Python `str.upper()` on one character: ASCII lowercase letters are mapped
to the corresponding uppercase letter, every other character is unchanged. -/
def pyCharUpper (c : Char) : Char :=
  if 97 ≤ c.toNat ∧ c.toNat ≤ 122 then Char.ofNat (c.toNat - 32) else c

/-- Python `str.upper()`. -/

def pyUpper (s : List Char) : List Char := s.map pyCharUpper

/-- Characters removed by the special-character variant rule of
`OCRProcessor.process_image` (Python `special_chars = "-./_"`). -/
def specialChars : List Char := ['-', '.', '/', '_']

/-- Python `str.lstrip('0')`: remove every leading zero character. -/

def lstripZeros (s : List Char) : List Char := s.dropWhile (fun c => c = '0')

/-- Python `str.startswith('0')`. -/

def startsWithZero (s : List Char) : Bool :=
  match s with
  | [] => false
  | c :: _ => c = '0'

/-- Python `str.replace(ch, '')`: drop every occurrence of one character. -/

def removeChar (s : List Char) (ch : Char) : List Char := s.filter (fun c => c ≠ ch)

/-- The loop `for char in special_chars: cleaned_pn = cleaned_pn.replace(char, '')`
of `OCRProcessor.process_image`. -/
def removeSpecialChars (s : List Char) : List Char := specialChars.foldl removeChar s

/-- Variant-expansion block of `OCRProcessor.process_image`
(`ocr_gui.py` lines 293-315): start from the raw part number; if it starts
with `'0'`, append the leading-zero-stripped form (when non-empty and
different); if it contains one of `- . / _`, append the form with all of
those characters removed (when non-empty and different), and if that form
starts with `'0'`, further append its leading-zero-stripped form (when
non-empty and different). -/
def expandVariants (pn : List Char) : List (List Char) :=
  let l1 := [pn]
  let l2 :=
    if startsWithZero pn then
      let stripped := lstripZeros pn
      if stripped ≠ [] ∧ stripped ≠ pn then l1 ++ [stripped] else l1
    else l1
  if specialChars.any (fun ch => pn.contains ch) then
    let cleaned := removeSpecialChars pn
    if cleaned ≠ [] ∧ cleaned ≠ pn then
      let l3 := l2 ++ [cleaned]
      if startsWithZero cleaned then
        let strippedCleaned := lstripZeros cleaned
        if strippedCleaned ≠ [] ∧ strippedCleaned ≠ cleaned then
          l3 ++ [strippedCleaned]
        else l3
      else l3
    else l2
  else l2

/-- A CSV row: the list of its fields, each a Python string. -/

abbrev CsvRow := List (List Char)

/-- Header row written by `OCRProcessor.save_to_csv` when the output file
does not exist yet (`ocr_gui.py` line 359). -/
def csvHeader : CsvRow :=
  ["主品牌编码".toList, "转换码".toList, "英文名称".toList, "通用品牌".toList,
   "品牌编码".toList, "通用编码".toList, "来源文件".toList]

/-- Embedding of `OCRProcessor.save_to_csv` (`ocr_gui.py` lines 350-361): the
output file is `Option (List CsvRow)` (`none` = the file does not exist); the
function opens the file for append, writes the header first when the file did
not exist, then writes all records; the result is the new file content. -/
def save_to_csv (file : Option (List CsvRow)) (records : List CsvRow) : List CsvRow :=
  match file with
  | none => csvHeader :: records
  | some rows => rows ++ records

/-- Deduplication loop of `MainWindow.deduplicate_csv` (`ocr_gui.py` lines
621-629): keep a data row when it has at least 6 fields and its 6-field key
(`tuple(row[:6])`) is not in the seen set, adding the key to the set; rows
with fewer than 6 fields are skipped without touching the seen set. -/
def dedupRows : List CsvRow → List CsvRow → List CsvRow
  | [], _ => []
  | r :: rest, seen =>
    if 6 ≤ r.length then
      if r.take 6 ∈ seen then dedupRows rest seen
      else r :: dedupRows rest (r.take 6 :: seen)
    else dedupRows rest seen

/-- Embedding of `MainWindow.deduplicate_csv` (`ocr_gui.py` lines 597-645):
read all rows (`next(reader, None)` for the header, kept only when truthy,
then the data rows), return the file unchanged when it does not exist, has
at most one row, or no duplicate was removed; otherwise rewrite it as the
header followed by the deduplicated data rows. -/
def deduplicate_csv (file : Option (List CsvRow)) : Option (List CsvRow) :=
  match file with
  | none => none
  | some content =>
    let rows :=
      match content with
      | [] => []
      | h :: rest => if h = [] then rest else h :: rest
    if rows.length ≤ 1 then some content
    else
      match rows with
      | [] => some content
      | h :: rest =>
        let unique := h :: dedupRows rest []
        let removed : Int := (rows.length : Int) - (unique.length : Int)
        if removed = 0 then some content
        else some unique

/-- One recognized fragment of the OCR service's dict-format response: the
optional `text` and `box` JSON fields of an item, a box being the list of its
corner points. -/
structure OcrItem where
  text : Option (List Char)
  box : Option (List (Int × Int))

/-- Vertical position used for ordering a fragment:
`box = item.get('box', [[0, 0]])` then `y_pos = box[0][1] if box else 0`
(`ocr_gui.py` lines 156-157). -/
def itemY (it : OcrItem) : Int :=
  match it.box.getD [(0, 0)] with
  | [] => 0
  | p :: _ => p.2

/-- Stripped text of a fragment: `item.get('text', '').strip()`. -/

def itemText (it : OcrItem) : List Char := pyStrip (it.text.getD [])

/-- Ordering key of the Python `texts.sort(key=lambda x: x[0])` call:
compare (y, text) pairs by the vertical position. -/
def yKeyLE (a b : Int × List Char) : Prop := a.1 ≤ b.1

instance : DecidableRel yKeyLE := fun a b => Int.decLe a.1 b.1

instance : IsTotal (Int × List Char) yKeyLE := ⟨fun a b => Int.le_total a.1 b.1⟩

instance : IsTrans (Int × List Char) yKeyLE := ⟨fun _ _ _ => Int.le_trans⟩

/-- Lines-mode extraction of `call_ocr_api` (`ocr_gui.py` lines 152-162):
pair each item with its vertical position, sort by that key (Python's sort is
stable; a stable insertion sort realizes the same ordering), and return the
non-empty texts in sorted order. -/
def extractSortedTexts (data : List OcrItem) : List (List Char) :=
  let texts := data.map (fun it => (itemY it, itemText it))
  let sorted := List.insertionSort yKeyLE texts
  (sorted.map (fun t => t.2)).filter (fun t => !t.isEmpty)

/-- The JSON `data` field of an OCR response: a string in merged-text mode, a
list of fragment items in dict mode. -/
inductive OcrData
  | str (s : List Char)
  | items (l : List OcrItem)

/-- Parsed JSON body of an OCR response: its optional `code` and `data` fields. -/

structure OcrResponse where
  code : Option Int
  data : Option OcrData

/-- The outcome of `requests.post` as `call_ocr_api` observes it: either some
`requests.exceptions.RequestException` was raised (transport failure, timeout
and the like), or a response arrived, carrying an HTTP status code and a
parsed JSON body.  `response.raise_for_status()` raises `HTTPError` (a
subclass of `RequestException`) exactly for status codes in 400-599 (4xx
client errors and 5xx server errors); any other deliverable status is
returned to the caller. -/
inductive HttpResult
  | requestError
  | response (status : Nat) (body : OcrResponse)

/-- Empty result of `call_ocr_api`: `''` in merged-text mode, `[]` in lines
mode (`ocr_gui.py` lines 164, 167, 171). -/
def emptyOcrResult (return_text : Bool) : Sum (List Char) (List (List Char)) :=
  if return_text then Sum.inl [] else Sum.inr []

/-- Embedding of `OCRProcessor.call_ocr_api` (`ocr_gui.py` lines 120-171).
`Except` models an uncaught Python exception: iterating a non-empty string
`data` in lines mode calls `.get` on its single-character strings and raises
`AttributeError`, which no handler catches (an empty string iterates zero
times and yields `[]`). -/
def call_ocr_api (r : HttpResult) (return_text : Bool) :
    Except (List Char) (Sum (List Char) (List (List Char))) :=
  match r with
  | .requestError => .ok (emptyOcrResult return_text)
  | .response status body =>
    if 400 ≤ status ∧ status < 600 then
      .ok (emptyOcrResult return_text)
    else if body.code = some 100 then
      let data := body.data.getD (.items [])
      if return_text then
        .ok (.inl (match data with | .str s => s | .items _ => []))
      else
        match data with
        | .str s => if s.isEmpty then .ok (.inr []) else .error "AttributeError".toList
        | .items l => .ok (.inr (extractSortedTexts l))
    else if body.code = some 101 then
      .ok (emptyOcrResult return_text)
    else
      .ok (emptyOcrResult return_text)

/-- An output record assembled by `process_image` (`ocr_gui.py` lines
319-330): the six identity fields followed by the source-file name. -/
structure OutputRecord where
  mainBrandCode : List Char
  convertCode : List Char
  englishName : List Char
  universalBrand : List Char
  brandCode : List Char
  partNumber : List Char
  sourceFile : List Char
deriving DecidableEq

/-- The per-image deduplication key: the `record` tuple before the source
file is appended (`ocr_gui.py` line 319). -/
abbrev RecordKey :=
  List Char × List Char × List Char × List Char × List Char × List Char

/-- The 6-field key of a record (the record without its source file). -/

def recordKey (r : OutputRecord) : RecordKey :=
  (r.mainBrandCode, r.convertCode, r.englishName, r.universalBrand,
    r.brandCode, r.partNumber)

/-- Inner loop `for pn in pns_to_add` of `process_image` (`ocr_gui.py` lines
317-331): build a record for each variant, skip it when its 6-field key was
already seen within this image, and return the appended records together
with the grown seen set. -/
def addVariantRecords (main conv eng univ bc src : List Char) :
    List (List Char) → List RecordKey → List OutputRecord × List RecordKey
  | [], seen => ([], seen)
  | pn :: rest, seen =>
    let key : RecordKey := (main, conv, eng, univ, bc, pn)
    if key ∈ seen then addVariantRecords main conv eng univ bc src rest seen
    else
      let next := addVariantRecords main conv eng univ bc src rest (key :: seen)
      (⟨main, conv, eng, univ, bc, pn, src⟩ :: next.1, next.2)

/-- Outer loop `for brand_code, part_number in part_number_pairs` of
`process_image` (`ocr_gui.py` lines 286-331): look up the universal brand
with fallback to the brand code itself when unmapped, expand the part number
into its variants, and add the per-variant records with in-image
deduplication. -/
def buildRecords (mapping : List Char → Option (List Char))
    (main conv eng src : List Char) :
    List (List Char × List Char) → List RecordKey → List OutputRecord
  | [], _ => []
  | (bc, pn) :: rest, seen =>
    let univ := (mapping bc).getD bc
    let added := addVariantRecords main conv eng univ bc src (expandVariants pn) seen
    added.1 ++ buildRecords mapping main conv eng src rest added.2

/-- Record-building phase of `process_image` for one image: the seen set
starts empty (`seen_in_image = set()`, `ocr_gui.py` line 283). -/
def process_records (mapping : List Char → Option (List Char))
    (main conv eng src : List Char) (pairs : List (List Char × List Char)) :
    List OutputRecord :=
  buildRecords mapping main conv eng src pairs []

/-- ASCII alphanumeric character (the regex class `[a-zA-Z0-9]`). -/

def isAsciiAlnum (c : Char) : Bool :=
  (65 ≤ c.toNat ∧ c.toNat ≤ 90) ∨ (97 ≤ c.toNat ∧ c.toNat ≤ 122) ∨
    (48 ≤ c.toNat ∧ c.toNat ≤ 57)

/-- Word character for the regex `\b` boundary (`[a-zA-Z0-9_]`, ASCII). -/

def isWordChar (c : Char) : Bool := isAsciiAlnum c ∨ c = '_'

/-- Part-number character class of the extraction pattern
`[a-zA-Z0-9\-\./_]` (`ocr_gui.py` line 209). -/
def isPartChar (c : Char) : Bool :=
  isAsciiAlnum c ∨ c = '-' ∨ c = '.' ∨ c = '/' ∨ c = '_'

/-- Case-insensitive match of the (escaped, hence literal) brand code against
a prefix of the text (`re.IGNORECASE`): on success, the rest of the text. -/
def dropBrandCI : List Char → List Char → Option (List Char)
  | [], t => some t
  | _ :: _, [] => none
  | b :: bs, c :: cs =>
    if pyCharUpper c = pyCharUpper b then dropBrandCI bs cs else none

/-- The `\b` assertion before a match position: `prev` is the character
before the position (`none` at the start of the text), `c` the text
character at the position. -/
def boundaryBefore (prev : Option Char) (c : Char) : Bool :=
  match prev with
  | none => isWordChar c
  | some p => isWordChar p ≠ isWordChar c

/-- One attempt of the pattern `\bBRAND\s*([a-zA-Z0-9][a-zA-Z0-9\-\./_]+)`
at the current position (the boundary is checked by the caller): match the
brand case-insensitively, skip whitespace greedily, then capture a maximal
run of part-number characters that starts alphanumeric and has length at
least 2.  On success, the capture and the text after the match. -/
def tryCapture (brand : List Char) (text : List Char) :
    Option (List Char × List Char) :=
  match dropBrandCI brand text with
  | none => none
  | some after =>
    match after.dropWhile isPySpace with
    | [] => none
    | d :: tail =>
      if isAsciiAlnum d then
        let run := tail.takeWhile isPartChar
        if run = [] then none
        else some (d :: run, tail.drop run.length)
      else none

/-- `re.findall` of the extraction pattern over the text, for one brand code:
scan left to right; at a position with a `\b` boundary where the pattern
matches, record the capture and continue after the match (matches do not
overlap); otherwise advance one character.  `fuel` bounds the recursion;
every step consumes at least one character of the text, so `text.length`
fuel is enough. -/
def scanBrand (brand : List Char) : Nat → Option Char → List Char → List (List Char)
  | 0, _, _ => []
  | _ + 1, _, [] => []
  | fuel + 1, prev, c :: rest =>
    if boundaryBefore prev c then
      match tryCapture brand (c :: rest) with
      | some (cap, remaining) =>
        cap :: scanBrand brand fuel (some (cap.getLastD c)) remaining
      | none => scanBrand brand fuel (some c) rest
    else scanBrand brand fuel (some c) rest

/-- All matches of the pattern for one brand code:
`re.findall(pattern, text, re.IGNORECASE)` (`ocr_gui.py` line 210). -/
def findBrandCaptures (brand text : List Char) : List (List Char) :=
  scanBrand brand text.length none text

/-- Brand-code normalization of `extract_part_numbers` (`ocr_gui.py` lines
186-192): strip, uppercase, drop empties, deduplicate keeping first-seen
order. -/
def dedupBrandCodes : List (List Char) → List (List Char) → List (List Char)
  | [], _ => []
  | bc :: rest, seen =>
    let bcUpper := pyUpper (pyStrip bc)
    if bcUpper ≠ [] ∧ bcUpper ∉ seen then
      bcUpper :: dedupBrandCodes rest (bcUpper :: seen)
    else dedupBrandCodes rest seen

/-- Whitespace collapsing of `extract_part_numbers` (`ocr_gui.py` lines
198-200): `text.strip()` followed by `' '.join(text.split())`. -/
def collapseWs (s : List Char) : List Char :=
  List.intercalate [' ']
    (((pyStrip s).splitOnP isPySpace).filter (fun t => !t.isEmpty))

/-- Embedding of `OCRProcessor.extract_part_numbers` (`ocr_gui.py` lines
173-221): normalize the brand codes; return nothing when no brand code or no
text; otherwise, for each brand code in order, uppercase every capture and
keep it when it is non-empty, is not itself a normalized brand code, and has
at least 4 characters. -/
def extract_part_numbers (brand_codes : List (List Char))
    (brand_part_text : List Char) : List (List Char × List Char) :=
  let unique := dedupBrandCodes brand_codes []
  if unique = [] ∨ brand_part_text = [] then []
  else
    let text := collapseWs brand_part_text
    (unique.map (fun bc =>
      (findBrandCaptures bc text).filterMap (fun cap =>
        let pn := pyUpper (pyStrip cap)
        if pn ≠ [] ∧ pn ∉ unique ∧ 4 ≤ pn.length then some (bc, pn)
        else none))).join

theorem char_toNat_ofNat {n : Nat} (h : n < 55296) : (Char.ofNat n).toNat = n := by
  unfold Char.ofNat
  rw [dif_pos (Or.inl h)]
  simp [Char.ofNatAux, Char.toNat, UInt32.toNat]

theorem pyCharUpper_idem (c : Char) : pyCharUpper (pyCharUpper c) = pyCharUpper c := by
  unfold pyCharUpper
  by_cases h : 97 ≤ c.toNat ∧ c.toNat ≤ 122
  · rw [if_pos h]
    have ht : (Char.ofNat (c.toNat - 32)).toNat = c.toNat - 32 :=
      char_toNat_ofNat (by omega)
    rw [ht, if_neg (by omega)]
  · rw [if_neg h, if_neg h]

theorem pyUpper_idem (s : List Char) : pyUpper (pyUpper s) = pyUpper s := by
  simp only [pyUpper, List.map_map]
  exact List.map_congr_left (fun c _ => by
    simp only [Function.comp_apply, pyCharUpper_idem])

theorem mem_removeSpecialChars {x : Char} {s : List Char} :
    x ∈ removeSpecialChars s ↔ x ∈ s ∧ x ∉ specialChars := by
  simp only [removeSpecialChars, specialChars, List.foldl_cons, List.foldl_nil,
    removeChar, List.mem_filter, List.mem_cons, List.not_mem_nil, or_false,
    decide_eq_true_eq]
  tauto

theorem mem_lstripZeros_of {x : Char} {s : List Char} (hx : x ∈ s) (hx0 : x ≠ '0') :
    x ∈ lstripZeros s := by
  induction s with
  | nil => cases hx
  | cons a t ih =>
    by_cases ha : a = '0'
    · subst ha
      have hx' : x ∈ t := by
        rcases List.mem_cons.mp hx with h | h
        · exact absurd h hx0
        · exact h
      simpa only [lstripZeros, List.dropWhile_cons, if_pos (by simp : decide (('0' : Char) = '0') = true)]
        using ih hx'
    · simp only [lstripZeros, List.dropWhile_cons]
      rw [if_neg (by simp [ha])]
      exact hx

theorem mem_of_mem_lstripZeros {x : Char} {s : List Char} (hx : x ∈ lstripZeros s) :
    x ∈ s :=
  (List.dropWhile_sublist _).subset hx

theorem special_ne_zero {x : Char} (h : x ∈ specialChars) : x ≠ '0' := by
  simp only [specialChars, List.mem_cons, List.not_mem_nil, or_false] at h
  rcases h with rfl | rfl | rfl | rfl <;> decide

theorem variant_ne_of_special {pn : List Char}
    (h : (specialChars.any fun ch => pn.contains ch) = true) :
    lstripZeros pn ≠ removeSpecialChars pn ∧
    lstripZeros pn ≠ lstripZeros (removeSpecialChars pn) ∧
    pn ≠ lstripZeros (removeSpecialChars pn) := by
  rcases List.any_eq_true.mp h with ⟨ch, hch, hc⟩
  have hmem : ch ∈ pn := by simpa using hc
  have h0 : ch ≠ '0' := special_ne_zero hch
  have hS : ch ∈ lstripZeros pn := mem_lstripZeros_of hmem h0
  have hC : ch ∉ removeSpecialChars pn := fun hm => (mem_removeSpecialChars.mp hm).2 hch
  have hSC : ch ∉ lstripZeros (removeSpecialChars pn) :=
    fun hm => hC (mem_of_mem_lstripZeros hm)
  exact ⟨fun he => hC (he ▸ hS), fun he => hSC (he ▸ hS), fun he => hSC (he ▸ hmem)⟩

theorem claim_C4 (pn : List Char) :
    (expandVariants pn).head? = some pn ∧ (expandVariants pn).Nodup := by
  refine ⟨by simp only [expandVariants]; split_ifs <;> rfl, ?_⟩
  simp only [expandVariants]
  by_cases hA : (specialChars.any fun ch => pn.contains ch) = true
  case neg =>
    rw [if_neg hA]
    by_cases hZ : startsWithZero pn = true
    case neg => rw [if_neg hZ]; simp
    case pos =>
      rw [if_pos hZ]
      by_cases hS : lstripZeros pn ≠ [] ∧ lstripZeros pn ≠ pn
      case neg => rw [if_neg hS]; simp
      case pos =>
        have hS2 : pn ≠ lstripZeros pn := fun h => hS.2 h.symm
        rw [if_pos hS]
        simp [List.nodup_cons] <;> tauto
  case pos =>
    rw [if_pos hA]
    obtain ⟨hd1, hd2, hd3⟩ := variant_ne_of_special hA
    by_cases hC : removeSpecialChars pn ≠ [] ∧ removeSpecialChars pn ≠ pn
    case neg =>
      rw [if_neg hC]
      by_cases hZ : startsWithZero pn = true
      case neg => rw [if_neg hZ]; simp
      case pos =>
        rw [if_pos hZ]
        by_cases hS : lstripZeros pn ≠ [] ∧ lstripZeros pn ≠ pn
        case neg => rw [if_neg hS]; simp
        case pos =>
          have hS2 : pn ≠ lstripZeros pn := fun h => hS.2 h.symm
          rw [if_pos hS]
          simp [List.nodup_cons] <;> tauto
    case pos =>
      have hC2 : pn ≠ removeSpecialChars pn := fun h => hC.2 h.symm
      rw [if_pos hC]
      by_cases hZ2 : startsWithZero (removeSpecialChars pn) = true
      case neg =>
        rw [if_neg hZ2]
        by_cases hZ : startsWithZero pn = true
        case neg => rw [if_neg hZ]; simp [List.nodup_cons] <;> tauto
        case pos =>
          rw [if_pos hZ]
          by_cases hS : lstripZeros pn ≠ [] ∧ lstripZeros pn ≠ pn
          case neg => rw [if_neg hS]; simp [List.nodup_cons] <;> tauto
          case pos =>
            have hS2 : pn ≠ lstripZeros pn := fun h => hS.2 h.symm
            rw [if_pos hS]
            simp [List.nodup_cons] <;> tauto
      case pos =>
        rw [if_pos hZ2]
        by_cases hG : lstripZeros (removeSpecialChars pn) ≠ [] ∧
            lstripZeros (removeSpecialChars pn) ≠ removeSpecialChars pn
        case neg =>
          rw [if_neg hG]
          by_cases hZ : startsWithZero pn = true
          case neg => rw [if_neg hZ]; simp [List.nodup_cons] <;> tauto
          case pos =>
            rw [if_pos hZ]
            by_cases hS : lstripZeros pn ≠ [] ∧ lstripZeros pn ≠ pn
            case neg => rw [if_neg hS]; simp [List.nodup_cons] <;> tauto
            case pos =>
              have hS2 : pn ≠ lstripZeros pn := fun h => hS.2 h.symm
              rw [if_pos hS]
              simp [List.nodup_cons] <;> tauto
        case pos =>
          have hG2 : removeSpecialChars pn ≠ lstripZeros (removeSpecialChars pn) :=
            fun h => hG.2 h.symm
          rw [if_pos hG]
          by_cases hZ : startsWithZero pn = true
          case neg => rw [if_neg hZ]; simp [List.nodup_cons] <;> tauto
          case pos =>
            rw [if_pos hZ]
            by_cases hS : lstripZeros pn ≠ [] ∧ lstripZeros pn ≠ pn
            case neg => rw [if_neg hS]; simp [List.nodup_cons] <;> tauto
            case pos =>
              have hS2 : pn ≠ lstripZeros pn := fun h => hS.2 h.symm
              rw [if_pos hS]
              simp [List.nodup_cons] <;> tauto

/-- Claim C2 (counterexample): contrary to the claim, rule 1 of the variant
expansion does fire on "0AB-12": the code tests `part_number.startswith('0')`,
which is true for "0AB-12", so the variant with the leading zero removed
("AB-12") is appended. -/
theorem claim_C2_counterexample :
    "AB-12".toList ∈ expandVariants ("0AB-12".toList) ∧
    expandVariants ("0AB-12".toList) =
      ["0AB-12".toList, "AB-12".toList, "0AB12".toList, "AB12".toList] := by
  decide

/-- Claim C2 (amended): expand("0AB-12") does produce the leading-zero-stripped
variant, because rule 1 tests only whether the part number starts with the
character '0': the full variant sequence is
["0AB-12", "AB-12", "0AB12", "AB12"]. -/
theorem claim_C2 :
    expandVariants ("0AB-12".toList) =
      ["0AB-12".toList, "AB-12".toList, "0AB12".toList, "AB12".toList] := by
  decide

/-- Claim C10: for every part number P the variant expansion of
`process_image` produces at most 4 variants, each drawn from the set
{P, P with leading zeros stripped, P with all of - . / _ removed,
P with punctuation removed and then leading zeros stripped}. -/
theorem claim_C10 (pn : List Char) :
    (expandVariants pn).length ≤ 4 ∧
    ∀ x ∈ expandVariants pn,
      x = pn ∨ x = lstripZeros pn ∨ x = removeSpecialChars pn ∨
        x = lstripZeros (removeSpecialChars pn) := by
  simp only [expandVariants]
  split_ifs <;> constructor <;> simp <;> tauto

theorem dedupRows_length_le (rows seen : List CsvRow) :
    (dedupRows rows seen).length ≤ rows.length := by
  induction rows generalizing seen with
  | nil => simp [dedupRows]
  | cons r rest ih =>
    simp only [dedupRows, List.length_cons]
    split_ifs
    · exact Nat.le_succ_of_le (ih seen)
    · simpa using Nat.succ_le_succ (ih (r.take 6 :: seen))
    · exact Nat.le_succ_of_le (ih seen)

theorem dedupRows_eq_of_length (rows : List CsvRow) (seen : List CsvRow)
    (h : (dedupRows rows seen).length = rows.length) : dedupRows rows seen = rows := by
  induction rows generalizing seen with
  | nil => rfl
  | cons r rest ih =>
    simp only [dedupRows, List.length_cons] at h ⊢
    split_ifs at h ⊢ with h1 h2
    · exact absurd h (by have := dedupRows_length_le rest seen; omega)
    · simp only [List.length_cons] at h
      rw [ih (r.take 6 :: seen) (by omega)]
    · exact absurd h (by have := dedupRows_length_le rest seen; omega)

theorem dedupRows_long (rows seen : List CsvRow) :
    ∀ r ∈ dedupRows rows seen, 6 ≤ r.length := by
  induction rows generalizing seen with
  | nil => simp [dedupRows]
  | cons r rest ih =>
    simp only [dedupRows]
    split_ifs with h1 h2
    · exact ih seen
    · intro x hx
      rcases List.mem_cons.mp hx with rfl | hx
      · exact h1
      · exact ih (r.take 6 :: seen) x hx
    · exact ih seen

theorem dedupRows_keep_all (records : List CsvRow) (tail seen : List CsvRow)
    (hlen : ∀ r ∈ records, 6 ≤ r.length)
    (hfresh : ∀ r ∈ records, r.take 6 ∉ seen)
    (hkeys : (records.map (fun x => x.take 6)).Nodup) :
    ∃ seen', dedupRows (records ++ tail) seen = records ++ dedupRows tail seen' ∧
      ∀ k, k ∈ seen' ↔ k ∈ seen ∨ k ∈ records.map (fun x => x.take 6) := by
  induction records generalizing seen with
  | nil => exact ⟨seen, rfl, by simp⟩
  | cons r rest ih =>
    rw [List.map_cons, List.nodup_cons] at hkeys
    simp only [List.cons_append, dedupRows]
    rw [if_pos (hlen r (by simp)), if_neg (hfresh r (by simp))]
    obtain ⟨seen', heq, hmem⟩ := ih (r.take 6 :: seen)
      (fun x hx => hlen x (by simp [hx]))
      (fun x hx hk => by
        rcases List.mem_cons.mp hk with hk | hk
        · exact hkeys.1 (hk ▸ List.mem_map_of_mem (fun x => x.take 6) hx)
        · exact hfresh x (by simp [hx]) hk)
      hkeys.2
    refine ⟨seen', ?_, fun k => ?_⟩
    · simp only [List.append_eq] at heq ⊢
      rw [heq]
    · rw [hmem k]
      simp only [List.mem_cons, List.map_cons, List.mem_cons]
      tauto

theorem dedupRows_drop_all (tail : List CsvRow) (seen : List CsvRow)
    (h : ∀ r ∈ tail, 6 ≤ r.length → r.take 6 ∈ seen) :
    dedupRows tail seen = [] := by
  induction tail with
  | nil => rfl
  | cons r rest ih =>
    simp only [dedupRows]
    split_ifs with h1 h2
    · exact ih (fun x hx hl => h x (by simp [hx]) hl)
    · exact absurd (h r (by simp) h1) h2
    · exact ih (fun x hx hl => h x (by simp [hx]) hl)

/-- Claim C9: compaction silently removes every data row with fewer than 6
fields: `deduplicate_csv` always leaves the file as the header followed by
the first-occurrence deduplication of the data rows, in which every row has
at least 6 fields. -/
theorem claim_C9 (h : CsvRow) (rest : List CsvRow) (hh : h ≠ []) :
    deduplicate_csv (some (h :: rest)) = some (h :: dedupRows rest []) ∧
    ∀ r ∈ dedupRows rest [], 6 ≤ r.length := by
  refine ⟨?_, dedupRows_long rest []⟩
  simp only [deduplicate_csv, if_neg hh]
  by_cases hr : rest = []
  · subst hr
    simp [dedupRows]
  · have hgt : ¬((h :: rest).length ≤ 1) := by
      simp only [List.length_cons]
      have : rest.length ≠ 0 := fun hx => hr (List.length_eq_zero.mp hx)
      omega
    simp only [if_neg hgt]
    by_cases hzero : (((h :: rest).length : Int) - ((h :: dedupRows rest []).length : Int)) = 0
    · simp only [if_pos hzero]
      have hlen : (dedupRows rest []).length = rest.length := by
        simp only [List.length_cons] at hzero
        omega
      rw [dedupRows_eq_of_length rest [] hlen]
    · simp only [if_neg hzero]

/-- Claim C9 witness: a concrete file whose data rows are one 6-field row and
one short row; compaction keeps the header and the 6-field row only. -/
theorem claim_C9_witness :
    deduplicate_csv (some [[['h']], [['a'],['b'],['c'],['d'],['e'],['f']], [['x']]]) =
      some ([['h']] :: dedupRows [[['a'],['b'],['c'],['d'],['e'],['f']], [['x']]] []) ∧
    ∀ r ∈ dedupRows [[['a'],['b'],['c'],['d'],['e'],['f']], [['x']]] [], 6 ≤ r.length :=
  claim_C9 [['h']] [[['a'],['b'],['c'],['d'],['e'],['f']], [['x']]] (by decide)

/-- Claim C3: starting from a non-existent output table, appending a batch of
records with pairwise-distinct 6-field keys, appending the same batch again,
and then compacting leaves exactly the header row followed by those records,
in first-occurrence order. -/
theorem claim_C3 (records : List CsvRow)
    (hlen : ∀ r ∈ records, 6 ≤ r.length)
    (hkeys : (records.map (fun x => x.take 6)).Nodup) :
    deduplicate_csv (some (save_to_csv (some (save_to_csv none records)) records)) =
      some (csvHeader :: records) := by
  simp only [save_to_csv]
  rw [List.cons_append]
  by_cases hrec : records = []
  · subst hrec
    simp [deduplicate_csv, csvHeader]
  · have hhead : (csvHeader : CsvRow) ≠ [] := by decide
    simp only [deduplicate_csv, if_neg hhead]
    have hne : records.length ≠ 0 := fun hx => hrec (List.length_eq_zero.mp hx)
    have hgt : ¬((csvHeader :: (records ++ records)).length ≤ 1) := by
      simp only [List.length_cons, List.length_append]
      omega
    simp only [if_neg hgt]
    obtain ⟨seen', heq, hmem⟩ := dedupRows_keep_all records records [] hlen (by simp) hkeys
    have hdrop : dedupRows records seen' = [] :=
      dedupRows_drop_all records seen' (fun r hr _ =>
        (hmem (r.take 6)).mpr (Or.inr (List.mem_map_of_mem _ hr)))
    have hdd : dedupRows (records ++ records) [] = records := by
      rw [heq, hdrop, List.append_nil]
    rw [hdd]
    have hzero : ¬((((csvHeader :: (records ++ records)).length : Int) -
        ((csvHeader :: records).length : Int)) = 0) := by
      simp only [List.length_cons, List.length_append]
      omega
    simp only [if_neg hzero]

/-- Claim C3 witness: a concrete two-record batch with distinct keys. -/
theorem claim_C3_witness :
    deduplicate_csv (some (save_to_csv (some (save_to_csv none
        [[['a'],['b'],['c'],['d'],['e'],['f'],['g']],
         [['x'],['b'],['c'],['d'],['e'],['f'],['g']]]))
        [[['a'],['b'],['c'],['d'],['e'],['f'],['g']],
         [['x'],['b'],['c'],['d'],['e'],['f'],['g']]])) =
      some (csvHeader ::
        [[['a'],['b'],['c'],['d'],['e'],['f'],['g']],
         [['x'],['b'],['c'],['d'],['e'],['f'],['g']]]) :=
  claim_C3 _ (by decide) (by decide)

theorem filter_orderedInsert (y : Int) (a : Int × List Char)
    (l : List (Int × List Char)) :
    (List.orderedInsert yKeyLE a l).filter (fun p => decide (p.1 = y)) =
      ((a :: l).filter (fun p => decide (p.1 = y))) := by
  induction l with
  | nil => rfl
  | cons b t ih =>
    simp only [List.orderedInsert]
    split_ifs with hab
    · rfl
    · by_cases hb : b.1 = y
      · by_cases ha2 : a.1 = y
        · exact absurd (le_of_eq (ha2.trans hb.symm) : yKeyLE a b) hab
        · simp only [List.filter_cons, hb, ha2, decide_true_eq_true, decide_false_eq_false]
          simp [hb, ha2, ih]
      · simp [List.filter_cons, hb, ih]

theorem filter_insertionSort (y : Int) (l : List (Int × List Char)) :
    (List.insertionSort yKeyLE l).filter (fun p => decide (p.1 = y)) =
      l.filter (fun p => decide (p.1 = y)) := by
  induction l with
  | nil => rfl
  | cons a t ih =>
    simp only [List.insertionSort]
    rw [filter_orderedInsert]
    by_cases hpa : a.1 = y <;> simp [List.filter_cons, hpa, ih]

/-- Claim C5: in lines mode, `call_ocr_api` returns the recognized fragments
sorted by the vertical coordinate of each fragment's bounding-box top edge in
ascending order, fragments at equal vertical position kept in detection
order: the returned list is the non-empty texts of a permutation of the
detected (y, text) pairs that is sorted by y and agrees with detection order
on every fixed y. -/
theorem claim_C5 (data : List OcrItem) :
    ∃ sorted : List (Int × List Char),
      call_ocr_api (.response 200 ⟨some 100, some (.items data)⟩) false =
        .ok (.inr ((sorted.map (fun t => t.2)).filter (fun t => !t.isEmpty))) ∧
      sorted.Perm (data.map (fun it => (itemY it, itemText it))) ∧
      List.Sorted yKeyLE sorted ∧
      ∀ y : Int, sorted.filter (fun p => decide (p.1 = y)) =
        (data.map (fun it => (itemY it, itemText it))).filter
          (fun p => decide (p.1 = y)) := by
  refine ⟨List.insertionSort yKeyLE (data.map (fun it => (itemY it, itemText it))),
    rfl, List.perm_insertionSort yKeyLE _, List.sorted_insertionSort yKeyLE _,
    fun y => filter_insertionSort y _⟩

/-- Claim C6 (counterexample): a non-2xx HTTP status that `raise_for_status`
does not reject (here 300) with a code-100 JSON body is parsed normally, so
the result is not empty: "non-2xx status implies empty result" fails on the
code. -/
theorem claim_C6_counterexample :
    call_ocr_api (.response 300 ⟨some 100, some (.str ['H', 'I'])⟩) true =
      .ok (.inl ['H', 'I']) ∧ (['H', 'I'] : List Char) ≠ [] :=
  ⟨rfl, by decide⟩

/-- Claim C6 (amended): when the network call raises, or the HTTP status is an
error status (in 400-599, the band `raise_for_status` rejects), or the service
does not report code 100 (code 101 "no text" or any other status),
`call_ocr_api` does not raise and returns the empty string in merged-text
mode and the empty sequence in lines mode. -/
theorem claim_C6 (r : HttpResult)
    (h : r = .requestError ∨
      ∃ status body, r = .response status body ∧
        ((400 ≤ status ∧ status < 600) ∨ body.code ≠ some 100)) :
    call_ocr_api r true = .ok (.inl []) ∧ call_ocr_api r false = .ok (.inr []) := by
  rcases h with rfl | ⟨status, body, rfl, h⟩
  · exact ⟨rfl, rfl⟩
  · by_cases h4 : 400 ≤ status ∧ status < 600
    · simp [call_ocr_api, if_pos h4, emptyOcrResult]
    · rcases h with h | h
      · exact absurd h h4
      · by_cases h101 : body.code = some 101
        · simp [call_ocr_api, if_neg h4, if_neg h, if_pos h101, emptyOcrResult]
        · simp [call_ocr_api, if_neg h4, if_neg h, if_neg h101, emptyOcrResult]

/-- Claim C6 witness: the transport-failure case. -/
theorem claim_C6_witness :
    call_ocr_api .requestError true = .ok (.inl []) ∧
    call_ocr_api .requestError false = .ok (.inr []) :=
  claim_C6 .requestError (Or.inl rfl)

theorem addVariantRecords_fields (main conv eng univ bc src : List Char)
    (pns : List (List Char)) (seen : List RecordKey) :
    ∀ r ∈ (addVariantRecords main conv eng univ bc src pns seen).1,
      r.universalBrand = univ ∧ r.brandCode = bc := by
  induction pns generalizing seen with
  | nil => simp [addVariantRecords]
  | cons pn rest ih =>
    simp only [addVariantRecords]
    split_ifs with hk
    · exact ih seen
    · intro r hr
      rcases List.mem_cons.mp hr with rfl | hr
      · exact ⟨rfl, rfl⟩
      · exact ih _ r hr

theorem addVariantRecords_seen (main conv eng univ bc src : List Char)
    (pns : List (List Char)) (seen : List RecordKey) :
    ∀ k ∈ (addVariantRecords main conv eng univ bc src pns seen).2,
      k ∈ seen ∨
      ∃ r ∈ (addVariantRecords main conv eng univ bc src pns seen).1,
        recordKey r = k := by
  induction pns generalizing seen with
  | nil => exact fun k hk => Or.inl hk
  | cons pn rest ih =>
    simp only [addVariantRecords]
    split_ifs with hk
    · exact ih seen
    · intro k hkmem
      rcases ih _ k hkmem with hks | ⟨r, hr, hrk⟩
      · rcases List.mem_cons.mp hks with rfl | hks
        · exact Or.inr ⟨⟨main, conv, eng, univ, bc, pn, src⟩, by simp, rfl⟩
        · exact Or.inl hks
      · exact Or.inr ⟨r, by simp [hr], hrk⟩

theorem addVariantRecords_head (main conv eng univ bc src : List Char)
    (pn : List Char) (rest : List (List Char)) (seen : List RecordKey) :
    ((main, conv, eng, univ, bc, pn) : RecordKey) ∈ seen ∨
    ∃ r ∈ (addVariantRecords main conv eng univ bc src (pn :: rest) seen).1,
      recordKey r = ((main, conv, eng, univ, bc, pn) : RecordKey) := by
  simp only [addVariantRecords]
  split_ifs with hk
  · exact Or.inl hk
  · exact Or.inr ⟨⟨main, conv, eng, univ, bc, pn, src⟩, by simp, rfl⟩

theorem expandVariants_cons (pn : List Char) :
    ∃ t, expandVariants pn = pn :: t := by
  simp only [expandVariants]
  split_ifs <;> exact ⟨_, rfl⟩

theorem buildRecords_univ (mapping : List Char → Option (List Char))
    (main conv eng src : List Char) (pairs : List (List Char × List Char))
    (seen : List RecordKey) :
    ∀ r ∈ buildRecords mapping main conv eng src pairs seen,
      r.universalBrand = (mapping r.brandCode).getD r.brandCode := by
  induction pairs generalizing seen with
  | nil => simp [buildRecords]
  | cons p rest ih =>
    obtain ⟨bc, pn⟩ := p
    simp only [buildRecords]
    intro r hr
    rcases List.mem_append.mp hr with hr | hr
    · obtain ⟨hu, hb⟩ := addVariantRecords_fields main conv eng
        ((mapping bc).getD bc) bc src (expandVariants pn) seen r hr
      rw [hu, hb]
    · exact ih _ r hr

theorem buildRecords_pairs (mapping : List Char → Option (List Char))
    (main conv eng src : List Char) (pairs : List (List Char × List Char))
    (seen : List RecordKey) :
    ∀ p ∈ pairs,
      ((main, conv, eng, (mapping p.1).getD p.1, p.1, p.2) : RecordKey) ∈ seen ∨
      ∃ r ∈ buildRecords mapping main conv eng src pairs seen,
        recordKey r = ((main, conv, eng, (mapping p.1).getD p.1, p.1, p.2) : RecordKey) := by
  induction pairs generalizing seen with
  | nil => simp
  | cons q rest ih =>
    obtain ⟨bc, pn⟩ := q
    intro p hp
    rcases List.mem_cons.mp hp with rfl | hp
    · obtain ⟨t, ht⟩ := expandVariants_cons pn
      have hhead : ((main, conv, eng, (mapping bc).getD bc, bc, pn) : RecordKey) ∈ seen ∨
          ∃ r ∈ (addVariantRecords main conv eng ((mapping bc).getD bc) bc src
            (expandVariants pn) seen).1,
            recordKey r = ((main, conv, eng, (mapping bc).getD bc, bc, pn) : RecordKey) := by
        rw [ht]
        exact addVariantRecords_head main conv eng ((mapping bc).getD bc) bc src pn t seen
      simp only [buildRecords]
      rcases hhead with hs | ⟨r, hr, hrk⟩
      · exact Or.inl hs
      · exact Or.inr ⟨r, List.mem_append.mpr (Or.inl hr), hrk⟩
    · simp only [buildRecords]
      rcases ih _ p hp with hs | ⟨r, hr, hrk⟩
      · rcases addVariantRecords_seen main conv eng ((mapping bc).getD bc) bc src
            (expandVariants pn) seen _ hs with hs | ⟨r, hr, hrk⟩
        · exact Or.inl hs
        · exact Or.inr ⟨r, List.mem_append.mpr (Or.inl hr), hrk⟩
      · exact Or.inr ⟨r, List.mem_append.mpr (Or.inr hr), hrk⟩

/-- Claim C7: every record assembled by `process_image` carries
universalBrand = BrandMapping[brandCode] when the brand code is mapped and
universalBrand = brandCode when it is not; and no extracted pair is dropped
for lacking a mapping: every pair contributes a record with its brand code,
its part number and that universal brand. -/
theorem claim_C7 (mapping : List Char → Option (List Char))
    (main conv eng src : List Char) (pairs : List (List Char × List Char)) :
    (∀ r ∈ process_records mapping main conv eng src pairs,
        r.universalBrand = (mapping r.brandCode).getD r.brandCode) ∧
    (∀ p ∈ pairs, ∃ r ∈ process_records mapping main conv eng src pairs,
        r.brandCode = p.1 ∧ r.partNumber = p.2 ∧
        r.universalBrand = (mapping p.1).getD p.1) := by
  refine ⟨buildRecords_univ mapping main conv eng src pairs [], fun p hp => ?_⟩
  rcases buildRecords_pairs mapping main conv eng src pairs [] p hp with hs | ⟨r, hr, hrk⟩
  · cases hs
  · refine ⟨r, hr, ?_, ?_, ?_⟩ <;>
      (simp only [recordKey, Prod.mk.injEq] at hrk; tauto)

/-- Claim C1: extraction never returns a pair whose part number, after
uppercasing, equals a member of the normalized (uppercased, trimmed,
deduplicated) brand-code list, and never returns a part number shorter than
4 characters. -/
theorem claim_C1 (brand_codes : List (List Char)) (brand_part_text : List Char)
    (p : List Char × List Char)
    (hp : p ∈ extract_part_numbers brand_codes brand_part_text) :
    pyUpper p.2 ∉ dedupBrandCodes brand_codes [] ∧ 4 ≤ p.2.length := by
  simp only [extract_part_numbers] at hp
  split_ifs at hp with h
  · cases hp
  · rcases List.mem_join.mp hp with ⟨l, hl, hpl⟩
    rcases List.mem_map.mp hl with ⟨bc, hbc, rfl⟩
    rcases List.mem_filterMap.mp hpl with ⟨cap, hcap, hsome⟩
    split_ifs at hsome with hcond
    cases hsome
    refine ⟨?_, hcond.2.2⟩
    rw [pyUpper_idem]
    exact hcond.2.1

/-- Claim C1 witness: the pair ("ACME", "AB1234") extracted from a concrete
text satisfies the guarantees. -/
theorem claim_C1_witness :
    (("ACME".toList, "AB1234".toList) : List Char × List Char) ∈
      extract_part_numbers ["ACME".toList, "ZED".toList]
        "ACME AB1234 foo ZED XY99 bar".toList ∧
    (pyUpper "AB1234".toList ∉
        dedupBrandCodes ["ACME".toList, "ZED".toList] [] ∧
      4 ≤ "AB1234".toList.length) := by
  have hmem : (("ACME".toList, "AB1234".toList) : List Char × List Char) ∈
      extract_part_numbers ["ACME".toList, "ZED".toList]
        "ACME AB1234 foo ZED XY99 bar".toList := by decide
  exact ⟨hmem, claim_C1 ["ACME".toList, "ZED".toList]
    "ACME AB1234 foo ZED XY99 bar".toList ("ACME".toList, "AB1234".toList) hmem⟩

/-- Claim C8: with brand codes ["ACME", "ZED"] and text
"ACME AB1234 foo ZED XY99 bar", extraction yields exactly
[("ACME", "AB1234"), ("ZED", "XY99")], in that order. -/
theorem claim_C8 :
    extract_part_numbers ["ACME".toList, "ZED".toList]
        "ACME AB1234 foo ZED XY99 bar".toList =
      [("ACME".toList, "AB1234".toList), ("ZED".toList, "XY99".toList)] := by
  decide

end OcrGui
